import Mathlib

/-!
Verification of the BestAllocation portfolio backtesting engine
(src/backend: backtester.py, optimization.py, metrics.py, config.py).

The Python code is shallowly embedded: Python floats become ℚ (exact
arithmetic), dicts become association lists (`List (String × ℚ)`) with
`.get(k, 0.0)` modelled by `dictGet`, date-indexed series become
`List (ℕ × ℚ)` sorted by date key, and fallible code returns
`Except String`.  External library calls (scipy Ward-linkage ordering,
the cvxpy convex solver, the dendrogram coordinates) are inputs
("oracles") of the embedded functions: the repository's own logic is
embedded, the collaborators are universally quantified.
-/

abbrev Ticker := String

/-- A Python `Dict[str, float]` weight mapping, as an association list
(keys unique in the code; lookups model `dict.get`). -/
abbrev Weights := List (Ticker × ℚ)

/-- A returns DataFrame, one `(ticker, column-of-returns)` per asset,
all columns of equal length (the row count of the frame). -/
abbrev ReturnsMatrix := List (Ticker × List ℚ)

/-- `d.get(t, 0.0)` on a Python dict. -/
def dictGet (d : Weights) (t : Ticker) : ℚ := (d.lookup t).getD 0

-- ===========================================================================
-- config.py constants
-- ===========================================================================

/-- config.py: `TURNOVER_SMOOTHING_FACTOR = 0.25`. -/
def TURNOVER_SMOOTHING_FACTOR : ℚ := 1/4

/-- config.py: `DEFAULT_RISK_FREE_RATE = 0.045  # 4.5% fallback`. -/
def DEFAULT_RISK_FREE_RATE : ℚ := 45/1000

/-- config.py: `RETURN_SHRINKAGE_INTENSITY = 0.5` (James-Stein shrinkage
intensity documented "for MVO"). -/
def RETURN_SHRINKAGE_INTENSITY : ℚ := 1/2

-- ===========================================================================
-- backtester.py : smooth_weights
-- ===========================================================================

/-- The key set `set(new_weights.keys()) | set(old_weights.keys())`
(iteration order of a Python set is irrelevant to the values we prove
about; we fix append-then-dedup order). -/
def unionKeys (new_weights old_weights : Weights) : List Ticker :=
  (new_weights.map (·.1) ++ old_weights.map (·.1)).dedup

/-- backtester.py `smooth_weights`: early-returns `new_weights` when the
old dict is falsy (empty) or the factor is ≤ 0, otherwise blends
`(1 - α) * new + α * old` over the union of key sets, without
renormalizing. -/
def smooth_weights (new_weights old_weights : Weights)
    (smoothing_factor : ℚ := TURNOVER_SMOOTHING_FACTOR) : Weights :=
  if old_weights = [] ∨ smoothing_factor ≤ 0 then new_weights
  else
    (unionKeys new_weights old_weights).map (fun t =>
      (t, (1 - smoothing_factor) * dictGet new_weights t
            + smoothing_factor * dictGet old_weights t))

-- ===========================================================================
-- backtester.py : risk-free-rate resolution (lines 259-264 and 393-396)
-- ===========================================================================

/-- `pandas.Series.asof(d)`: the last value whose date key is ≤ d, NaN
(here `none`) when there is none.  The series is date-sorted. -/
def seriesAsof (s : List (ℕ × ℚ)) (d : ℕ) : Option ℚ :=
  ((s.filter (fun p => p.1 ≤ d)).getLast?).map (·.2)

/-- backtester.py rate resolution for a date-indexed series:
`current_rf_annual = float(risk_free_rate.asof(current_date))` followed by
`if pd.isna(current_rf_annual): current_rf_annual = 0.04  # Fallback`
(the same literal `0.04` is used in the holding-period loop). -/
def resolveAnnualRf (s : List (ℕ × ℚ)) (d : ℕ) : ℚ :=
  match seriesAsof s d with
  | some v => v
  | none => 4/100

-- ===========================================================================
-- pypfopt expected_returns.ema_historical_return (as called by the code)
-- ===========================================================================

/-- Last row of `returns.ewm(span=span).mean()` (pandas, adjust=True):
the β-geometrically weighted average of the observations, most recent
first, with β = 1 - 2/(span+1). -/
def ewmLast (span : ℕ) (xs : List ℚ) : ℚ :=
  let β : ℚ := 1 - 2 / ((span : ℚ) + 1)
  let rev := xs.reverse
  (∑ k ∈ Finset.range xs.length, β ^ k * rev.getD k 0) /
    (∑ k ∈ Finset.range xs.length, β ^ k)

/-- `expected_returns.ema_historical_return(returns, returns_data=True,
frequency=freq, span=span)` with the default `compounding=True`:
`(1 + ewm_last) ** frequency - 1`. -/
def emaAnnualReturn (freq span : ℕ) (xs : List ℚ) : ℚ :=
  (1 + ewmLast span xs) ^ freq - 1

/-- Row count of the returns frame (all columns share it). -/
def numRows (R : ReturnsMatrix) : ℕ := ((R.head?.map (·.2.length))).getD 0

/-- The expected-return vector the MVO branch of `optimize_with_fallback`
feeds to the max-Sharpe solve: `ema_historical_return` with
`span = dynamic_span = len(returns)` (optimization.py lines 357-358). -/
def mvoExpectedReturns (freq : ℕ) (R : ReturnsMatrix) : Weights :=
  R.map (fun c => (c.1, emaAnnualReturn freq (numRows R) c.2))

/-- Modelled from the spec: the spec's claimed further shrinkage of the
expected-return estimate toward the cross-sectional grand mean,
`shrunk = λ×grand_mean + (1−λ)×sample_mean` with
λ = RETURN_SHRINKAGE_INTENSITY (default 0.5).  No such computation exists
in the source; this definition follows the spec's words, to be compared
with `mvoExpectedReturns`. -/
def specShrunkReturns (freq : ℕ) (R : ReturnsMatrix) : Weights :=
  let mus := mvoExpectedReturns freq R
  let grand := (mus.map (·.2)).sum / (mus.length : ℚ)
  mus.map (fun p =>
    (p.1, RETURN_SHRINKAGE_INTENSITY * grand
            + (1 - RETURN_SHRINKAGE_INTENSITY) * p.2))

/-- `pandas.Series.max()` of a list of values (none for an empty series,
where pandas yields NaN). -/
def seriesMax : List ℚ → Option ℚ
  | [] => none
  | x :: xs => some (xs.foldl max x)

/-- The guard `mu.max() < risk_free_rate` (optimization.py line 363).
For an empty frame pandas gives NaN and `NaN < rf` is False. -/
def muMaxBelowRf (mus : List ℚ) (rf : ℚ) : Bool :=
  match seriesMax mus with
  | some m => decide (m < rf)
  | none => false

-- ===========================================================================
-- optimization.py : sample covariance (pandas returns.cov(), ddof = 1)
-- ===========================================================================

/-- Column `i` of the returns frame (empty beyond range). -/
def colOf (R : ReturnsMatrix) (i : ℕ) : List ℚ := ((R.get? i).map (·.2)).getD []

/-- Column mean over the frame's T rows. -/
def colMean (T : ℕ) (x : List ℚ) : ℚ :=
  (∑ t ∈ Finset.range T, x.getD t 0) / (T : ℚ)

/-- `returns.cov()` entry (i, j): sample covariance with denominator
T - 1 (pandas ddof=1), over the frame's T rows. -/
def covFn (T : ℕ) (R : ReturnsMatrix) (i j : ℕ) : ℚ :=
  (∑ t ∈ Finset.range T,
      ((colOf R i).getD t 0 - colMean T (colOf R i)) *
      ((colOf R j).getD t 0 - colMean T (colOf R j))) / ((T : ℚ) - 1)

-- ===========================================================================
-- optimization.py : HRP (get_allocations / get_cluster_var / get_rec_bipart /
-- optimize_hrp)
-- ===========================================================================

/-- `get_allocations` (inverse-variance weights over a cluster), stated
per index: `ivp = (1/diag) / (1/diag).sum()` over the cluster items. -/
def ivpWeight (cov : ℕ → ℕ → ℚ) (items : List ℕ) (i : ℕ) : ℚ :=
  (1 / cov i i) / (items.map (fun j => 1 / cov j j)).sum

/-- `get_cluster_var`: `w @ cov_slice @ w` with `w = get_allocations`. -/
def get_cluster_var (cov : ℕ → ℕ → ℚ) (items : List ℕ) : ℚ :=
  (items.map (fun i =>
    ivpWeight cov items i *
      (items.map (fun j => cov i j * ivpWeight cov items j)).sum)).sum

/-- `get_rec_bipart`: recursive bisection at list midpoints.  The source
runs this as a breadth-first while-loop multiplying a weight Series in
place; each leaf's final weight is the product of the split factors along
its root-to-leaf path, which this structural recursion computes (a split's
variances depend only on `cov` and the sublists, so the traversal order
does not change the result).  Python raises `ZeroDivisionError` on
`c_var0 / (c_var0 + c_var1)` when the denominator is exactly zero, which
the caller's `except` turns into the equal-weight fallback; the error is
made explicit here.  `fuel ≥ items.length` suffices. -/
def get_rec_bipart (cov : ℕ → ℕ → ℚ) :
    ℕ → List ℕ → ℚ → Except String (List (ℕ × ℚ))
  | 0, _, _ => Except.error "fuel"
  | fuel + 1, items, mult =>
    if items.length ≤ 1 then Except.ok (items.map (fun i => (i, mult)))
    else
      let c_items0 := items.take (items.length / 2)
      let c_items1 := items.drop (items.length / 2)
      let c_var0 := get_cluster_var cov c_items0
      let c_var1 := get_cluster_var cov c_items1
      if c_var0 + c_var1 = 0 then Except.error "ZeroDivisionError"
      else
        let α := 1 - c_var0 / (c_var0 + c_var1)
        match get_rec_bipart cov fuel c_items0 (mult * α),
              get_rec_bipart cov fuel c_items1 (mult * (1 - α)) with
        | Except.ok wl, Except.ok wr => Except.ok (wl ++ wr)
        | Except.error e, _ => Except.error e
        | _, Except.error e => Except.error e

/-- The equal-weight fallback `{col: 1.0 / n for col in returns.columns}`. -/
def equal_weights (R : ReturnsMatrix) : Weights :=
  R.map (fun c => (c.1, 1 / (R.length : ℚ)))

/-- Whether the distance matrix `sqrt(0.5*(1-corr))` handed to scipy
`linkage` contains a non-finite off-diagonal entry.  A pandas correlation
entry (i,j) is NaN exactly when column i or column j has zero sample
variance (this also covers frames with fewer than two rows, whose sample
variances are all degenerate; the diagonal is overwritten with 0 by
`np.fill_diagonal` and does not reach the condensed matrix). -/
def hrpHasNaNDist (T : ℕ) (R : ReturnsMatrix) : Bool :=
  (List.range R.length).any (fun i =>
    (List.range R.length).any (fun j =>
      decide (i ≠ j) && (decide (covFn T R i i = 0) || decide (covFn T R j j = 0))))

/-- Ticker label at position `i` (`corr.index[i]`). -/
def tickerAt (R : ReturnsMatrix) (i : ℕ) : Ticker := ((R.get? i).map (·.1)).getD ""

/-- optimization.py `optimize_hrp`.  The scipy calls are oracles:
`sortIx` is the quasi-diagonalization order `get_quasi_diag(linkage(...))`
(a permutation of the asset indices whenever linkage succeeds), and
`dendro` stands for the `calculate_dendrogram` output.  scipy `linkage`
raises when the condensed distance matrix has a non-finite entry or fewer
than 2 observations; that exception — like a `ZeroDivisionError` from
`get_rec_bipart` — is caught by the function's own `except`, which
returns equal weights and no dendrogram. -/
def optimize_hrp (R : ReturnsMatrix) (sortIx : List ℕ) (dendro : Option Unit) :
    Weights × Option Unit :=
  let T := numRows R
  if R.length < 2 ∨ hrpHasNaNDist T R then (equal_weights R, none)
  else
    match get_rec_bipart (covFn T R) sortIx.length sortIx 1 with
    | Except.error _ => (equal_weights R, none)
    | Except.ok ws => (ws.map (fun p => (tickerAt R p.1, p.2)), dendro)

-- ===========================================================================
-- optimization.py : optimize_with_fallback
-- ===========================================================================

/-- The one result shape of optimization.py (`constraints_clipped` and
`constraint_distortion` keep their defaults in every construction the
claims touch and are omitted). -/
structure OptimizationResult where
  weights : Weights
  fallback_used : Bool := false
  fallback_reason : Option String := none
  dendrogram_data : Option Unit := none
deriving DecidableEq, Repr

/-- optimization.py `optimize_with_fallback`.  The cvxpy solves are
oracles `mvoSolve` / `gmvSolve` (`Except.error e` is a raised
`ValueError`/`OptimizationError` carrying `str(e) = e`).  The MVO branch
catches its solver's error itself and defaults to cash; a GMV solver
error escapes the per-method logic and is caught by the function's outer
`except Exception`, which returns equal weights with
`fallback_reason=str(e)` — as would any other exception reaching it.
The shrunk covariance `S` is computed before the MVO cash guard but is
pure numpy arithmetic (no exception) and does not affect control flow,
so it is not materialized here. -/
def optimize_with_fallback (R : ReturnsMatrix) (method : String) (rf : ℚ)
    (freq : ℕ) (sortIx : List ℕ) (dendro : Option Unit)
    (mvoSolve gmvSolve : Except String Weights) : OptimizationResult :=
  if method = "hrp" ∨ method = "nco" then
    let res := optimize_hrp R sortIx dendro
    { weights := res.1, fallback_used := false, dendrogram_data := res.2 }
  else if method = "mvo" then
    let mus := (mvoExpectedReturns freq R).map (·.2)
    if muMaxBelowRf mus rf then
      { weights := R.map (fun c => (c.1, 0)), fallback_used := false }
    else
      match mvoSolve with
      | Except.ok w => { weights := w }
      | Except.error e =>
          { weights := R.map (fun c => (c.1, 0)), fallback_used := true,
            fallback_reason := some ("MVO Solver Failed: " ++ e ++ " -> Cash") }
  else if method = "gmv" then
    match gmvSolve with
    | Except.ok w => { weights := w }
    | Except.error e =>
        { weights := equal_weights R, fallback_used := true,
          fallback_reason := some e }
  else
    { weights := equal_weights R, fallback_used := true,
      fallback_reason := some ("Unknown method: " ++ method) }

-- ===========================================================================
-- backtester.py : walk_forward_backtest, state-machine skeleton
-- ===========================================================================

/-- One rebalance cycle of `walk_forward_backtest`, at the index level of
the aligned date index (length L): the decision index `current_idx` (one
`allocation_history` entry and one `rebalance_dates` entry are appended
per cycle), the execution index `min(current_idx + 1, L - 1)`, and the
day indices `range(holding_start_idx, next_rebalance_idx)` for which one
equity-curve point each is appended. -/
structure CycleRec where
  rebalance_idx : ℕ
  execution_idx : ℕ
  holding : List ℕ
deriving DecidableEq, Repr

/-- The number of rows of
`returns.loc[:dates[t]].iloc[-training_window-1:-1]`: `returns` has one
row per date index 1..L-1, the label slice keeps the first `t` of them,
and the iloc slice keeps at most `training_window` rows while dropping
the last, giving `min(t - 1, training_window)` rows. -/
def trainLen (training_window t : ℕ) : ℕ := min (t - 1) training_window

/-- The `while current_idx < len(dates)` loop of `walk_forward_backtest`,
index-level: if the training slice is empty the code `continue`s with
`current_idx += rebalancing_window` and records nothing, otherwise it
records the cycle and advances to
`next_rebalance_idx = min(current_idx + rebalancing_window, L)`.
Structured with fuel (the loop need not terminate when
`rebalancing_window = 0`; with it ≥ 1 at most L+1 iterations happen, see
`wfCycles_eq_of_ge`). -/
def wfCycles (L w r : ℕ) : ℕ → ℕ → List CycleRec
  | 0, _ => []
  | fuel + 1, t =>
    if t < L then
      if trainLen w t = 0 then wfCycles L w r fuel (t + r)
      else
        let e := min (t + 1) (L - 1)
        let nxt := min (t + r) L
        ⟨t, e, List.range' e (nxt - e)⟩ :: wfCycles L w r fuel nxt
    else []

/-- The full run: `current_idx` starts at `training_window`. -/
def walk_forward_cycles (L w r : ℕ) : List CycleRec := wfCycles L w r (L + 1) w

/-- The date indices of `rebalance_dates` (= those of
`allocation_history`, appended together). -/
def rebalanceIndices (L w r : ℕ) : List ℕ :=
  (walk_forward_cycles L w r).map (·.rebalance_idx)

/-- The date indices receiving an equity-curve point, in append order. -/
def equityDays (L w r : ℕ) : List ℕ :=
  (walk_forward_cycles L w r).foldr (fun c acc => c.holding ++ acc) []

-- ===========================================================================
-- metrics.py : calculate_risk_contributions
-- ===========================================================================

/-- Whether `cov_matrix.loc[tickers, tickers]` succeeds: every pair of
weight-dict tickers must be a valid (row, column) label pair.  A missing
label raises a `KeyError`, the only exception the try body can raise. -/
def alignedCov (ws : Weights) (cov : Ticker → Ticker → Option ℚ) : Bool :=
  ws.all (fun p => ws.all (fun q => (cov p.1 q.1).isSome))

/-- `port_var = w.T @ cov @ w` over the dict's tickers in order. -/
def portVarOf (ws : Weights) (cov : Ticker → Ticker → Option ℚ) : ℚ :=
  (ws.map (fun p =>
    p.2 * (ws.map (fun q => ((cov p.1 q.1).getD 0) * q.2)).sum)).sum

/-- metrics.py `calculate_risk_contributions`.  The code computes
`port_vol = sqrt(port_var)` and tests `port_vol < 1e-9`, then returns
`pct_rc_i = w_i * (cov @ w)_i / port_vol / port_vol`.  For the PSD inputs
the claims quantify over (`port_var ≥ 0`), `sqrt(port_var) < 1e-9` is
equivalent to `port_var < 1e-18` and `x / port_vol / port_vol` equals
`x / port_var`, which is how the exact-arithmetic embedding states both.
Any exception (a `KeyError` from the `.loc` alignment) yields the
equal-contribution fallback `{t: 1.0/n}`. -/
def calculate_risk_contributions (ws : Weights)
    (cov : Ticker → Ticker → Option ℚ) : Weights :=
  if alignedCov ws cov then
    let port_var := portVarOf ws cov
    if port_var < 1/10^18 then ws.map (fun p => (p.1, 0))
    else
      ws.map (fun p =>
        (p.1, p.2 * (ws.map (fun q => ((cov p.1 q.1).getD 0) * q.2)).sum
                / port_var))
  else ws.map (fun p => (p.1, 1 / (ws.length : ℚ)))


-- ===========================================================================
-- Helper lemmas
-- ===========================================================================

theorem dictGet_map_keys (keys : List Ticker) (g : Ticker → ℚ) (t : Ticker) :
    dictGet (keys.map (fun k => (k, g k))) t = if t ∈ keys then g t else 0 := by
  induction keys with
  | nil => simp [dictGet]
  | cons k ks ih =>
    by_cases hk : t = k
    · subst hk
      simp [dictGet, List.lookup]
    · have hbeq : (t == k) = false := by simpa using hk
      simp only [dictGet, List.map_cons, List.lookup, hbeq] at ih ⊢
      rw [ih]
      simp [hk]

theorem dictGet_eq_zero_of_not_mem (d : Weights) (t : Ticker)
    (h : t ∉ d.map (·.1)) : dictGet d t = 0 := by
  induction d with
  | nil => simp [dictGet]
  | cons p ps ih =>
    simp only [List.map_cons, List.mem_cons, not_or] at h
    have hbeq : (t == p.1) = false := by simpa using h.1
    simp only [dictGet, List.lookup, hbeq] at ih ⊢
    exact ih h.2

theorem listEqMapSelf {α : Type} (f : α → α) :
    ∀ (l : List α), l = l.map f → ∀ x ∈ l, x = f x := by
  intro l
  induction l with
  | nil => intro _ x hx; cases hx
  | cons a l ih =>
    intro h x hx
    rw [List.map_cons, List.cons.injEq] at h
    rw [List.mem_cons] at hx
    rcases hx with hx | hx
    · subst hx; exact h.1
    · exact ih h.2 x hx

-- ===========================================================================
-- C5 — smooth_weights
-- ===========================================================================

/-- C5 counterexample: the claim asserts the blend formula for *every*
pair of weight maps, but `smooth_weights` early-returns the new weights
unchanged when the old map is empty: with `old = {}`, `new = {"A": 1}`
and α = 1/4 the formula gives 3/4 while the code returns 1. -/
theorem smooth_weights_claim_false_on_empty_old :
    dictGet (smooth_weights [("A", 1)] [] (1/4)) "A" ≠
      (1 - 1/4) * dictGet [("A", 1)] "A" + (1/4) * dictGet [] "A" := by
  have h1 : dictGet (smooth_weights [("A", 1)] [] (1/4)) "A" = 1 := rfl
  have h2 : dictGet [("A", 1)] "A" = 1 := rfl
  have h3 : dictGet [] "A" = 0 := rfl
  rw [h1, h2, h3]
  norm_num

/-- C5 (amended with a non-empty previous weight map): for every ticker,
`smooth_weights` returns exactly `(1-α)·new + α·old` with missing entries
reading as 0, and no renormalization; in particular α = 0 reproduces the
new weights and α = 1 the previous weights. -/
theorem smooth_weights_blend (new_weights old_weights : Weights) (α : ℚ)
    (hold : old_weights ≠ []) (h0 : 0 ≤ α) (h1 : α ≤ 1) (t : Ticker) :
    dictGet (smooth_weights new_weights old_weights α) t =
      (1 - α) * dictGet new_weights t + α * dictGet old_weights t := by
  unfold smooth_weights
  by_cases hz : α ≤ 0
  · have hα : α = 0 := le_antisymm hz h0
    subst hα
    rw [if_pos (Or.inr le_rfl)]
    ring
  · rw [if_neg (by simp [hold, hz])]
    rw [dictGet_map_keys]
    by_cases hmem : t ∈ unionKeys new_weights old_weights
    · rw [if_pos hmem]
    · rw [if_neg hmem]
      have hsplit : t ∉ new_weights.map (·.1) ∧ t ∉ old_weights.map (·.1) := by
        unfold unionKeys at hmem
        rw [List.mem_dedup, List.mem_append] at hmem
        exact ⟨fun h => hmem (Or.inl h), fun h => hmem (Or.inr h)⟩
      rw [dictGet_eq_zero_of_not_mem _ _ hsplit.1,
          dictGet_eq_zero_of_not_mem _ _ hsplit.2]
      ring

/-- C5 witness. -/
theorem smooth_weights_blend_witness :
    ([("B", (1 : ℚ))] ≠ ([] : Weights)) ∧ (0 : ℚ) ≤ 1/4 ∧ (1/4 : ℚ) ≤ 1 ∧
      dictGet (smooth_weights [("A", 1/2)] [("B", 1)] (1/4)) "A" =
        (1 - 1/4) * dictGet [("A", 1/2)] "A" + (1/4) * dictGet [("B", 1)] "A" :=
  ⟨by simp, by norm_num, by norm_num,
    smooth_weights_blend [("A", 1/2)] [("B", 1)] (1/4)
      (by simp) (by norm_num) (by norm_num) "A"⟩

-- ===========================================================================
-- C7 — risk-free fallback constant
-- ===========================================================================

/-- C7: when the as-of lookup on a date-indexed risk-free series resolves
to nothing (series empty, or first observation after the query date), the
code substitutes the literal 0.04 — not the 4.5% that config.py's
`DEFAULT_RISK_FREE_RATE = 0.045  # 4.5% fallback` documents and the claim
states. -/
theorem resolveAnnualRf_fallback_is_four_percent :
    resolveAnnualRf [] 0 = 4/100 ∧
      resolveAnnualRf [(10, 5/100)] 3 = 4/100 ∧
      (4/100 : ℚ) ≠ DEFAULT_RISK_FREE_RATE := by
  refine ⟨rfl, rfl, ?_⟩
  unfold DEFAULT_RISK_FREE_RATE
  norm_num

-- ===========================================================================
-- C1 — MVO goes to cash when max expected return < risk-free rate
-- ===========================================================================

/-- C1: in `optimize_with_fallback` with method "mvo", whenever the
maximum of the annualized EMA expected-return estimates is strictly below
the supplied risk-free rate, the convex solve is skipped (the result does
not depend on the solver oracles) and the result is a 0.0 weight for
every ticker with `fallback_used = false`. -/
theorem mvo_cash_when_max_mu_below_rf (R : ReturnsMatrix) (rf : ℚ) (freq : ℕ)
    (sortIx : List ℕ) (dendro : Option Unit)
    (mvoSolve gmvSolve : Except String Weights) (m : ℚ)
    (hmax : seriesMax ((mvoExpectedReturns freq R).map (·.2)) = some m)
    (hlt : m < rf) :
    optimize_with_fallback R "mvo" rf freq sortIx dendro mvoSolve gmvSolve =
      { weights := R.map (fun c => (c.1, 0)), fallback_used := false } := by
  have hguard : muMaxBelowRf ((mvoExpectedReturns freq R).map (·.2)) rf = true := by
    unfold muMaxBelowRf
    rw [hmax]
    simpa using hlt
  simp [optimize_with_fallback, hguard]

/-- C1 witness: one asset with constant zero returns, rf = 1%. -/
theorem mvo_cash_when_max_mu_below_rf_witness :
    seriesMax ((mvoExpectedReturns 252 [("A", [0, 0])]).map (·.2)) = some 0 ∧
      (0 : ℚ) < 1/100 ∧
      optimize_with_fallback [("A", [0, 0])] "mvo" (1/100) 252 [] none
          (Except.ok []) (Except.ok []) =
        { weights := [("A", 0)], fallback_used := false } :=
  ⟨by norm_num [seriesMax, mvoExpectedReturns, numRows, emaAnnualReturn,
      ewmLast, Finset.sum_range_succ],
   by norm_num,
   mvo_cash_when_max_mu_below_rf [("A", [0, 0])] (1/100) 252 [] none
      (Except.ok []) (Except.ok []) 0
      (by norm_num [seriesMax, mvoExpectedReturns, numRows, emaAnnualReturn,
        ewmLast, Finset.sum_range_succ])
      (by norm_num)⟩

-- ===========================================================================
-- C2 — dispatch-with-fallback degradation
-- ===========================================================================

/-- C2 counterexample: the claim requires a *non-empty* fallback reason,
but the wrapper stores `str(e)` verbatim; an exception whose message is
the empty string (e.g. a bare `ValueError()`) escaping the GMV solve
yields `fallback_reason = ""`. -/
theorem optimize_with_fallback_empty_reason :
    (optimize_with_fallback [("A", [0])] "gmv" 0 252 [] none
        (Except.ok []) (Except.error "")).fallback_used = true ∧
      (optimize_with_fallback [("A", [0])] "gmv" 0 252 [] none
        (Except.ok []) (Except.error "")).fallback_reason = some "" :=
  ⟨rfl, rfl⟩

/-- C2 (amended): `optimize_with_fallback` is a total function, and
whenever an exception escapes the per-method logic (modelled by the
solver oracle erroring in the GMV branch, whose exceptions reach the
outer `except Exception` handler) or the method name is unrecognized, it
returns equal weights (1/n per ticker) with `fallback_used = true` and a
fallback reason attached — `str(e)`, which is non-empty exactly when the
exception message is, or the always non-empty "Unknown method: …". -/
theorem optimize_with_fallback_degrades (R : ReturnsMatrix) (method : String)
    (rf : ℚ) (freq : ℕ) (sortIx : List ℕ) (dendro : Option Unit)
    (mvoSolve gmvSolve : Except String Weights) (e : String)
    (h : (method ≠ "hrp" ∧ method ≠ "nco" ∧ method ≠ "mvo" ∧ method ≠ "gmv") ∨
         (method = "gmv" ∧ gmvSolve = Except.error e)) :
    (optimize_with_fallback R method rf freq sortIx dendro mvoSolve
        gmvSolve).weights = equal_weights R ∧
      (optimize_with_fallback R method rf freq sortIx dendro mvoSolve
        gmvSolve).fallback_used = true ∧
      (optimize_with_fallback R method rf freq sortIx dendro mvoSolve
        gmvSolve).fallback_reason.isSome = true := by
  rcases h with ⟨h1, h2, h3, h4⟩ | ⟨hm, hs⟩
  · unfold optimize_with_fallback
    rw [if_neg (by simp [h1, h2]), if_neg h3, if_neg h4]
    exact ⟨rfl, rfl, rfl⟩
  · subst hm
    unfold optimize_with_fallback
    rw [if_neg (by decide), if_neg (by decide), if_pos rfl, hs]
    exact ⟨rfl, rfl, rfl⟩

/-- C2 witness: an unrecognized method name. -/
theorem optimize_with_fallback_degrades_witness :
    (optimize_with_fallback [("A", [0]), ("B", [0])] "cvar" 0 252 [] none
        (Except.ok []) (Except.ok [])).weights =
          equal_weights [("A", [0]), ("B", [0])] ∧
      (optimize_with_fallback [("A", [0]), ("B", [0])] "cvar" 0 252 [] none
        (Except.ok []) (Except.ok [])).fallback_used = true ∧
      (optimize_with_fallback [("A", [0]), ("B", [0])] "cvar" 0 252 [] none
        (Except.ok []) (Except.ok [])).fallback_reason.isSome = true :=
  optimize_with_fallback_degrades [("A", [0]), ("B", [0])] "cvar" 0 252 [] none
    (Except.ok []) (Except.ok []) ""
    (Or.inl ⟨by decide, by decide, by decide, by decide⟩)

-- ===========================================================================
-- C6 — MVO expected-return vector is not shrunk toward the grand mean
-- ===========================================================================

/-- C6 counterexample: at a concrete two-asset returns matrix, the vector
the MVO branch feeds to the solver (the plain EMA estimate, per asset
0 for "A" and 1 for "B") differs from the spec's λ = 0.5 grand-mean
shrinkage of it (1/4 for "A"). -/
theorem mvo_mu_not_shrunk_cex :
    dictGet (mvoExpectedReturns 1 [("A", [0, 0]), ("B", [1, 1])]) "A" ≠
      dictGet (specShrunkReturns 1 [("A", [0, 0]), ("B", [1, 1])]) "A" := by
  norm_num [specShrunkReturns, mvoExpectedReturns, dictGet, List.lookup,
    numRows, RETURN_SHRINKAGE_INTENSITY, emaAnnualReturn, ewmLast,
    Finset.sum_range_succ]

/-- C6 (amended): the expected-return vector fed to the max-Sharpe solve
is the exponentially-weighted estimate itself (span = training length);
no grand-mean shrinkage is applied: whenever two assets have different
EMA estimates, that fed vector differs from the spec's
`λ×grand_mean + (1−λ)×sample_mean` (λ = 0.5) transform of it (and the
code adds no L2 regularization to the `max_sharpe` objective). -/
theorem mvo_mu_not_shrunk (freq : ℕ) (R : ReturnsMatrix) (p q : Ticker × ℚ)
    (hp : p ∈ mvoExpectedReturns freq R) (hq : q ∈ mvoExpectedReturns freq R)
    (hne : p.2 ≠ q.2) :
    mvoExpectedReturns freq R ≠ specShrunkReturns freq R := by
  intro heq
  have hunfold : specShrunkReturns freq R =
      (mvoExpectedReturns freq R).map (fun x =>
        (x.1, RETURN_SHRINKAGE_INTENSITY *
                ((((mvoExpectedReturns freq R).map (·.2)).sum) /
                  ((mvoExpectedReturns freq R).length : ℚ))
              + (1 - RETURN_SHRINKAGE_INTENSITY) * x.2)) := rfl
  have hfix := listEqMapSelf _ (mvoExpectedReturns freq R) (heq.trans hunfold)
  have hpg : p.2 = (((mvoExpectedReturns freq R).map (·.2)).sum) /
      ((mvoExpectedReturns freq R).length : ℚ) := by
    have hcong := congrArg Prod.snd (hfix p hp)
    simp only [RETURN_SHRINKAGE_INTENSITY] at hcong
    linarith
  have hqg : q.2 = (((mvoExpectedReturns freq R).map (·.2)).sum) /
      ((mvoExpectedReturns freq R).length : ℚ) := by
    have hcong := congrArg Prod.snd (hfix q hq)
    simp only [RETURN_SHRINKAGE_INTENSITY] at hcong
    linarith
  exact hne (hpg.trans hqg.symm)

/-- C6 witness. -/
theorem mvo_mu_not_shrunk_witness :
    ("A", (0 : ℚ)) ∈ mvoExpectedReturns 1 [("A", [0, 0]), ("B", [1, 1])] ∧
      ("B", (1 : ℚ)) ∈ mvoExpectedReturns 1 [("A", [0, 0]), ("B", [1, 1])] ∧
      ((0 : ℚ) ≠ 1) ∧
      mvoExpectedReturns 1 [("A", [0, 0]), ("B", [1, 1])] ≠
        specShrunkReturns 1 [("A", [0, 0]), ("B", [1, 1])] :=
  ⟨by norm_num [mvoExpectedReturns, numRows, emaAnnualReturn, ewmLast,
      Finset.sum_range_succ],
   by norm_num [mvoExpectedReturns, numRows, emaAnnualReturn, ewmLast,
      Finset.sum_range_succ],
   by norm_num,
   mvo_mu_not_shrunk 1 [("A", [0, 0]), ("B", [1, 1])] ("A", 0) ("B", 1)
     (by norm_num [mvoExpectedReturns, numRows, emaAnnualReturn, ewmLast,
        Finset.sum_range_succ])
     (by norm_num [mvoExpectedReturns, numRows, emaAnnualReturn, ewmLast,
        Finset.sum_range_succ])
     (by norm_num)⟩

-- ===========================================================================
-- C10 — calculate_risk_contributions is total and normalized
-- ===========================================================================

/-- C10: `calculate_risk_contributions` never raises (it is a total
function of its embedded inputs) and, for a PSD covariance
(`0 ≤ wᵀΣw`, under which the code's `sqrt(port_var) < 1e-9` test is
exactly `port_var < 1e-18`): on a `KeyError` (ticker missing from the
covariance frame) it returns 1/n per ticker; when the portfolio
volatility is below 1e-9 every returned contribution is 0.0; and
otherwise the returned per-ticker contributions sum to exactly 1. -/
theorem calculate_risk_contributions_spec (ws : Weights)
    (cov : Ticker → Ticker → Option ℚ) (hpsd : 0 ≤ portVarOf ws cov) :
    (alignedCov ws cov = false →
      calculate_risk_contributions ws cov =
        ws.map (fun p => (p.1, 1 / (ws.length : ℚ)))) ∧
    (alignedCov ws cov = true → portVarOf ws cov < 1/10^18 →
      ∀ p ∈ calculate_risk_contributions ws cov, p.2 = 0) ∧
    (alignedCov ws cov = true → 1/10^18 ≤ portVarOf ws cov →
      ((calculate_risk_contributions ws cov).map (·.2)).sum = 1) := by
  refine ⟨fun hal => ?_, fun hal hlt => ?_, fun hal hge => ?_⟩
  · unfold calculate_risk_contributions
    rw [hal]
    simp
  · unfold calculate_risk_contributions
    rw [hal]
    simp only [if_true, if_pos hlt]
    intro p hp
    rcases List.mem_map.mp hp with ⟨q, _, hq⟩
    exact (congrArg Prod.snd hq).symm
  · have hpos : 0 < portVarOf ws cov := lt_of_lt_of_le (by norm_num) hge
    unfold calculate_risk_contributions
    rw [hal]
    simp only [if_true, if_neg (not_lt.mpr hge)]
    rw [List.map_map]
    have hcomp : ((fun p : Ticker × ℚ => p.2) ∘ (fun p : Ticker × ℚ =>
        (p.1, p.2 * (ws.map (fun q => ((cov p.1 q.1).getD 0) * q.2)).sum
                / portVarOf ws cov))) =
        fun p : Ticker × ℚ =>
          (p.2 * (ws.map (fun q => ((cov p.1 q.1).getD 0) * q.2)).sum) *
            (portVarOf ws cov)⁻¹ := by
      funext p
      simp [div_eq_mul_inv]
    rw [hcomp, List.sum_map_mul_right]
    have hsum : (ws.map (fun p : Ticker × ℚ =>
        p.2 * (ws.map (fun q => ((cov p.1 q.1).getD 0) * q.2)).sum)).sum =
        portVarOf ws cov := rfl
    rw [hsum, mul_inv_cancel₀ (ne_of_gt hpos)]

/-- C10 witness: a single fully-weighted asset with unit variance. -/
theorem calculate_risk_contributions_spec_witness :
    (0 : ℚ) ≤ portVarOf [("A", 1)] (fun _ _ => some 1) ∧
      alignedCov [("A", 1)] (fun _ _ => some 1) = true ∧
      (1/10^18 : ℚ) ≤ portVarOf [("A", 1)] (fun _ _ => some 1) ∧
      ((calculate_risk_contributions [("A", 1)]
          (fun _ _ => some 1)).map (·.2)).sum = 1 :=
  ⟨by norm_num [portVarOf], rfl, by norm_num [portVarOf],
    (calculate_risk_contributions_spec [("A", 1)] (fun _ _ => some 1)
        (by norm_num [portVarOf])).2.2 rfl (by norm_num [portVarOf])⟩

-- ===========================================================================
-- Walk-forward loop characterization (toward C3 and C4)
-- ===========================================================================

theorem count_range' (s n a : ℕ) :
    (List.range' s n).count a = if s ≤ a ∧ a < s + n then 1 else 0 := by
  induction n generalizing s with
  | zero =>
    rw [if_neg (by omega)]
    rfl
  | succ n ih =>
    rw [List.range'_succ, List.count_cons, ih (s + 1)]
    have hbeq : ((s == a) = true) ↔ a = s := by
      constructor
      · intro h; exact (Nat.beq_eq_true_eq s a).mp h |>.symm
      · intro h; subst h; simp
    by_cases hsa : a = s
    · rw [if_pos (hbeq.mpr hsa), if_neg (by omega), if_pos (by omega)]
    · rw [if_neg (fun h => hsa (hbeq.mp h))]
      by_cases hin : s + 1 ≤ a ∧ a < s + 1 + n
      · rw [if_pos hin, if_pos (by omega)]
      · rw [if_neg hin, if_neg (by omega)]

theorem wfCycles_nil_of_ge (L w r fuel t : ℕ) (h : ¬ t < L) :
    wfCycles L w r fuel t = [] := by
  cases fuel with
  | zero => rfl
  | succ fuel => simp only [wfCycles, if_neg h]

theorem wfCycles_step (L w r fuel t : ℕ) (ht : t < L)
    (hg : ¬ trainLen w t = 0) :
    wfCycles L w r (fuel + 1) t =
      ⟨t, min (t + 1) (L - 1),
        List.range' (min (t + 1) (L - 1))
          (min (t + r) L - min (t + 1) (L - 1))⟩ ::
        wfCycles L w r fuel (min (t + r) L) := by
  simp only [wfCycles, if_pos ht, if_neg hg]

theorem wfCycles_rebalances (L w r : ℕ) (hw : 1 ≤ w) (hr : 0 < r) :
    ∀ fuel t, 2 ≤ t → L ≤ t + fuel →
      (wfCycles L w r fuel t).map (·.rebalance_idx) =
        (List.range ((L - t + r - 1) / r)).map (fun k => t + k * r) := by
  intro fuel
  induction fuel with
  | zero =>
    intro t h2 hLe
    rw [wfCycles_nil_of_ge L w r 0 t (by omega)]
    have hK : (L - t + r - 1) / r = 0 := Nat.div_eq_of_lt (by omega)
    rw [hK]
    rfl
  | succ fuel ih =>
    intro t h2 hLe
    by_cases ht : t < L
    · have hg : ¬ trainLen w t = 0 := by unfold trainLen; omega
      rw [wfCycles_step L w r fuel t ht hg, List.map_cons,
        ih (min (t + r) L) (by omega) (by omega)]
      by_cases hend : L ≤ t + r
      · have hnxt : min (t + r) L = L := by omega
        rw [hnxt]
        have hK0 : (L - L + r - 1) / r = 0 := Nat.div_eq_of_lt (by omega)
        rw [hK0]
        have hK1 : (L - t + r - 1) / r = 1 := by
          have h1 : L - t + r - 1 = r * 1 + (L - t - 1) := by omega
          rw [h1, Nat.mul_add_div hr, Nat.div_eq_of_lt (by omega)]
        rw [hK1]
        rw [List.range_succ_eq_map]
        simp
      · have hnxt : min (t + r) L = t + r := by omega
        rw [hnxt]
        have hKs : (L - t + r - 1) / r = (L - (t + r) + r - 1) / r + 1 := by
          have h1 : L - t + r - 1 = (L - (t + r) + r - 1) + r := by omega
          rw [h1, Nat.add_div_right _ hr]
        rw [hKs, List.range_succ_eq_map, List.map_cons, List.map_map]
        have hzero : t + 0 * r = t := by ring
        rw [hzero]
        refine congrArg (t :: ·) ?_
        refine List.map_congr_left ?_
        intro k _
        simp only [Function.comp, Nat.succ_eq_add_one]
        ring
    · rw [wfCycles_nil_of_ge L w r (fuel + 1) t ht]
      have hK : (L - t + r - 1) / r = 0 := Nat.div_eq_of_lt (by omega)
      rw [hK]
      rfl

theorem chain'_arith (r a n : ℕ) :
    List.Chain' (fun x y => y = x + r) ((List.range n).map (fun k => a + k * r)) := by
  rw [List.chain'_map]
  cases n with
  | zero => simp
  | succ m =>
    rw [List.chain'_range_succ]
    intro k _
    simp only [Nat.succ_eq_add_one]
    ring

-- ===========================================================================
-- C3 — rebalance schedule
-- ===========================================================================

/-- C3 counterexample: with L = 3 dates, training_window = 1 and
rebalancing_window = 1, the first loop iteration has an empty training
slice and `continue`s without recording anything, so only one rebalance
happens (at index 2), not the claimed ceil((3-1)/1) = 2 starting at
index 1. -/
theorem walk_forward_schedule_cex :
    (rebalanceIndices 3 1 1).length = 1 ∧ (3 - 1 + 1 - 1) / 1 = 2 ∧
      (rebalanceIndices 3 1 1).length ≠ (3 - 1 + 1 - 1) / 1 ∧
      (rebalanceIndices 3 1 1).head? ≠ some 1 := by
  decide

/-- C3 (amended: training_window ≥ 2, which the engine's 60–1260 contract
guarantees; with training_window ≤ 1 the first cycles are skipped): the
rebalance decision indices are exactly w, w+r, w+2r, … below L, so
allocation_history and rebalance_dates have length ceil((L−w)/r)
(= (L−w+r−1)/r), the first rebalance is at index w, and consecutive
rebalance indices differ by exactly r. -/
theorem walk_forward_rebalance_schedule (L w r : ℕ) (hw : 2 ≤ w) (hL : w < L)
    (hr : 0 < r) :
    rebalanceIndices L w r =
        (List.range ((L - w + r - 1) / r)).map (fun k => w + k * r) ∧
      (rebalanceIndices L w r).length = (L - w + r - 1) / r ∧
      (rebalanceIndices L w r).head? = some w ∧
      List.Chain' (fun a b => b = a + r) (rebalanceIndices L w r) := by
  have hmain : rebalanceIndices L w r =
      (List.range ((L - w + r - 1) / r)).map (fun k => w + k * r) :=
    wfCycles_rebalances L w r (by omega) hr (L + 1) w (by omega) (by omega)
  refine ⟨hmain, ?_, ?_, ?_⟩
  · rw [hmain]; simp
  · rw [hmain]
    have hK : 1 ≤ (L - w + r - 1) / r := by
      rw [Nat.le_div_iff_mul_le hr]; omega
    obtain ⟨K', hK'⟩ := Nat.exists_eq_add_of_le hK
    rw [hK', Nat.add_comm 1 K', List.range_succ_eq_map, List.map_cons]
    simp
  · rw [hmain]; exact chain'_arith r w _

/-- C3 witness: the spec's end-to-end example — 400 trading days,
training_window 252, rebalancing_window 21, giving ceil(148/21) = 8
rebalances starting at index 252. -/
theorem walk_forward_rebalance_schedule_witness :
    2 ≤ 252 ∧ 252 < 400 ∧ 0 < 21 ∧
      (rebalanceIndices 400 252 21 =
          (List.range ((400 - 252 + 21 - 1) / 21)).map (fun k => 252 + k * 21) ∧
        (rebalanceIndices 400 252 21).length = (400 - 252 + 21 - 1) / 21 ∧
        (rebalanceIndices 400 252 21).head? = some 252 ∧
        List.Chain' (fun a b => b = a + 21) (rebalanceIndices 400 252 21)) :=
  ⟨by decide, by decide, by decide,
    walk_forward_rebalance_schedule 400 252 21 (by decide) (by decide) (by decide)⟩

-- ===========================================================================
-- C4 — equity-curve day coverage
-- ===========================================================================

theorem wfDays_count (L w r : ℕ) (hw : 1 ≤ w) (hr : 0 < r) (d : ℕ) :
    ∀ fuel t, 2 ≤ t → L ≤ t + fuel →
      ((wfCycles L w r fuel t).foldr (fun c acc => c.holding ++ acc) []).count d =
        if t ≤ d ∧ d < L ∧ ((d - t) % r ≠ 0 ∨ d = L - 1) then 1 else 0 := by
  intro fuel
  induction fuel with
  | zero =>
    intro t h2 hLe
    rw [wfCycles_nil_of_ge L w r 0 t (by omega)]
    rw [if_neg (by rintro ⟨ha, hb, -⟩; omega)]
    rfl
  | succ fuel ih =>
    intro t h2 hLe
    by_cases ht : t < L
    · have hg : ¬ trainLen w t = 0 := by unfold trainLen; omega
      rw [wfCycles_step L w r fuel t ht hg]
      rw [List.foldr_cons, List.count_append, count_range',
        ih (min (t + r) L) (by omega) (by omega)]
      have hEN : min (t + 1) (L - 1) +
          (min (t + r) L - min (t + 1) (L - 1)) = min (t + r) L := by omega
      rw [hEN]
      by_cases hdL : d < L
      · by_cases hA : min (t + 1) (L - 1) ≤ d ∧ d < min (t + r) L
        · have hcond : t ≤ d ∧ d < L ∧ ((d - t) % r ≠ 0 ∨ d = L - 1) := by
            refine ⟨by omega, hdL, ?_⟩
            by_cases hdt : d = t
            · right; omega
            · left
              have hlt : d - t < r := by omega
              rw [Nat.mod_eq_of_lt hlt]
              omega
          rw [if_pos hA, if_neg (by rintro ⟨hb, -, -⟩; omega), if_pos hcond]
        · by_cases hB : min (t + r) L ≤ d
          · have hnxt : min (t + r) L = t + r := by omega
            have hmod : (d - (t + r)) % r = (d - t) % r := by
              have hsub : d - t = (d - (t + r)) + r := by omega
              rw [hsub, Nat.add_mod_right]
            by_cases hm : (d - min (t + r) L) % r ≠ 0 ∨ d = L - 1
            · have hcond : t ≤ d ∧ d < L ∧ ((d - t) % r ≠ 0 ∨ d = L - 1) := by
                refine ⟨by omega, hdL, ?_⟩
                rcases hm with hm | hm
                · left
                  rw [hnxt] at hm
                  rw [← hmod]
                  exact hm
                · exact Or.inr hm
              rw [if_neg hA, if_pos ⟨hB, hdL, hm⟩, if_pos hcond]
            · have hcond : ¬ (t ≤ d ∧ d < L ∧ ((d - t) % r ≠ 0 ∨ d = L - 1)) := by
                rintro ⟨-, -, hc⟩
                apply hm
                rcases hc with hc | hc
                · left
                  rw [hnxt, hmod]
                  exact hc
                · exact Or.inr hc
              rw [if_neg hA, if_neg (by rintro ⟨-, -, hc⟩; exact hm hc),
                if_neg hcond]
          · have hcond : ¬ (t ≤ d ∧ d < L ∧ ((d - t) % r ≠ 0 ∨ d = L - 1)) := by
              rintro ⟨h1, -, h3⟩
              have hdE : d < min (t + 1) (L - 1) := by omega
              have hdt : d = t := by omega
              rcases h3 with h3 | h3
              · apply h3
                rw [hdt]
                simp
              · omega
            rw [if_neg hA, if_neg (by rintro ⟨hb, -, -⟩; omega), if_neg hcond]
      · rw [if_neg (by rintro ⟨-, hb⟩; omega),
          if_neg (by rintro ⟨-, hb, -⟩; omega),
          if_neg (by rintro ⟨-, hb, -⟩; omega)]
    · rw [wfCycles_nil_of_ge L w r (fuel + 1) t ht]
      rw [if_neg (by rintro ⟨ha, hb, -⟩; omega)]
      rfl

/-- C4 counterexample: with L = 6 aligned dates, training_window = 2 and
rebalancing_window = 2, date index 2 (the first rebalance decision day,
index ≥ training_window) receives no equity-curve point at all: each
cycle appends points only from the execution day T+1 up to (excluding)
the next rebalance index, so the curve covers exactly indices 3 and 5. -/
theorem walk_forward_equity_days_cex :
    (equityDays 6 2 2).count 2 = 0 ∧ 2 ≤ 2 ∧ 2 < 6 ∧
      equityDays 6 2 2 = [3, 5] := by
  decide

/-- C4 (amended): one equity-curve point is appended per day of each
cycle's `range(execution_idx, next_rebalance_idx)`; consequently a date
index d is covered exactly once iff it lies in [w, L), is not a
rebalance-decision index (r ∤ d − w) — except that the very last date is
covered even when it is a decision index — and is never covered
otherwise.  In particular the decision days w, w+r, … (other than a
final-date one) get no point, unlike the claimed "every aligned trading
date with index ≥ training_window appears exactly once". -/
theorem walk_forward_equity_days (L w r : ℕ) (hw : 2 ≤ w) (hL : w < L)
    (hr : 0 < r) (d : ℕ) :
    (equityDays L w r).count d =
      if w ≤ d ∧ d < L ∧ ((d - w) % r ≠ 0 ∨ d = L - 1) then 1 else 0 :=
  wfDays_count L w r (by omega) hr d (L + 1) w (by omega) (by omega)

/-- C4 witness: the L = 6, w = 2, r = 2 run, evaluated at day 3 (covered
once) via the theorem. -/
theorem walk_forward_equity_days_witness :
    2 ≤ 2 ∧ 2 < 6 ∧ 0 < 2 ∧
      (equityDays 6 2 2).count 3 =
        (if 2 ≤ 3 ∧ 3 < 6 ∧ ((3 - 2) % 2 ≠ 0 ∨ 3 = 6 - 1) then 1 else 0) :=
  ⟨by decide, by decide, by decide,
    walk_forward_equity_days 6 2 2 (by decide) (by decide) (by decide) 3⟩

-- ===========================================================================
-- C8 — HRP does not clean NaN correlations; zero-variance assets degrade
-- to the equal-weight fallback
-- ===========================================================================

/-- C8 counterexample: for a concrete returns matrix with a zero-variance
asset "B", the distance matrix handed to the clustering does contain a
non-finite entry — `optimize_hrp` has no NaN-replacement or clipping step
— contradicting the claim that it is real and NaN-free. -/
theorem hrp_nan_dist_cex :
    hrpHasNaNDist (numRows [("A", [1/100, 2/100]), ("B", [0, 0])])
      [("A", [1/100, 2/100]), ("B", [0, 0])] = true := by
  norm_num [hrpHasNaNDist, numRows, List.range_succ, covFn, colOf, colMean,
    Finset.sum_range_succ]

/-- C8 (amended): NaN correlations are not replaced and nothing is
clipped; whenever some asset has zero sample variance (and there are at
least two assets), the NaN reaches the condensed distance matrix, scipy
`linkage` raises, and `optimize_hrp`'s own exception handler returns the
equal-weight fallback with no dendrogram. -/
theorem hrp_zero_variance_fallback (R : ReturnsMatrix) (sortIx : List ℕ)
    (dendro : Option Unit) (i : ℕ) (hi : i < R.length)
    (hvar : covFn (numRows R) R i i = 0) (hn : 2 ≤ R.length) :
    hrpHasNaNDist (numRows R) R = true ∧
      optimize_hrp R sortIx dendro = (equal_weights R, none) := by
  have hnan : hrpHasNaNDist (numRows R) R = true := by
    have hj : ∃ j, j < R.length ∧ j ≠ i := by
      by_cases h0 : i = 0
      · exact ⟨1, by omega, by omega⟩
      · exact ⟨0, by omega, fun h => h0 (h.symm)⟩
    obtain ⟨j, hjn, hji⟩ := hj
    unfold hrpHasNaNDist
    rw [List.any_eq_true]
    refine ⟨i, List.mem_range.mpr hi, ?_⟩
    rw [List.any_eq_true]
    refine ⟨j, List.mem_range.mpr hjn, ?_⟩
    simp [Ne.symm hji, hvar]
  refine ⟨hnan, ?_⟩
  simp only [optimize_hrp]
  rw [if_pos (Or.inr hnan)]

/-- C8 witness. -/
theorem hrp_zero_variance_fallback_witness :
    (1 : ℕ) < ([("A", [0, 1/10]), ("B", [0, 0])] : ReturnsMatrix).length ∧
      covFn (numRows [("A", [0, 1/10]), ("B", [0, 0])])
        [("A", [0, 1/10]), ("B", [0, 0])] 1 1 = 0 ∧
      hrpHasNaNDist (numRows [("A", [0, 1/10]), ("B", [0, 0])])
        [("A", [0, 1/10]), ("B", [0, 0])] = true ∧
      optimize_hrp [("A", [0, 1/10]), ("B", [0, 0])] [0, 1] (some ()) =
        (equal_weights [("A", [0, 1/10]), ("B", [0, 0])], none) :=
  ⟨by decide,
   by norm_num [covFn, colOf, colMean, numRows, Finset.sum_range_succ],
   (hrp_zero_variance_fallback [("A", [0, 1/10]), ("B", [0, 0])] [0, 1]
      (some ()) 1 (by decide)
      (by norm_num [covFn, colOf, colMean, numRows, Finset.sum_range_succ])
      (by decide)).1,
   (hrp_zero_variance_fallback [("A", [0, 1/10]), ("B", [0, 0])] [0, 1]
      (some ()) 1 (by decide)
      (by norm_num [covFn, colOf, colMean, numRows, Finset.sum_range_succ])
      (by decide)).2⟩

-- ===========================================================================
-- C9 — HRP weights are non-negative and sum to 1
-- ===========================================================================

theorem list_sum_finset_sum_comm (l : List ℕ) (T : ℕ) (f : ℕ → ℕ → ℚ) :
    (l.map (fun i => ∑ x ∈ Finset.range T, f i x)).sum =
      ∑ x ∈ Finset.range T, (l.map (fun i => f i x)).sum := by
  induction l with
  | nil => simp
  | cons a l ih => simp [List.map_cons, List.sum_cons, ih, Finset.sum_add_distrib]

/-- A quadratic form whose matrix is a scaled Gram matrix
`(Σ_x c i x * c j x) / D` with `D > 0` is non-negative — even over an
index list with duplicates. -/
theorem quadform_gram_nonneg (T : ℕ) (D : ℚ) (hD : 0 < D) (c : ℕ → ℕ → ℚ)
    (g : ℕ → ℚ) (items : List ℕ) :
    0 ≤ (items.map (fun i => g i *
        (items.map (fun j =>
          ((∑ x ∈ Finset.range T, c i x * c j x) / D) * g j)).sum)).sum := by
  have hinner : ∀ i, (items.map (fun j =>
      ((∑ x ∈ Finset.range T, c i x * c j x) / D) * g j)).sum =
      ∑ x ∈ Finset.range T,
        (c i x / D) * (items.map (fun j => c j x * g j)).sum := by
    intro i
    have h1 : (items.map (fun j =>
        ((∑ x ∈ Finset.range T, c i x * c j x) / D) * g j)).sum =
        (items.map (fun j => ∑ x ∈ Finset.range T,
          (c i x / D) * (c j x * g j))).sum := by
      refine congrArg List.sum (List.map_congr_left ?_)
      intro j _
      rw [Finset.sum_div, Finset.sum_mul]
      refine Finset.sum_congr rfl ?_
      intro x _
      ring
    rw [h1, list_sum_finset_sum_comm]
    refine Finset.sum_congr rfl ?_
    intro x _
    rw [List.sum_map_mul_left]
  have houter : (items.map (fun i => g i *
      (items.map (fun j =>
        ((∑ x ∈ Finset.range T, c i x * c j x) / D) * g j)).sum)).sum =
      ∑ x ∈ Finset.range T,
        ((items.map (fun j => c j x * g j)).sum *
          (items.map (fun j => c j x * g j)).sum) / D := by
    have h2 : (items.map (fun i => g i *
        (items.map (fun j =>
          ((∑ x ∈ Finset.range T, c i x * c j x) / D) * g j)).sum)).sum =
        (items.map (fun i => ∑ x ∈ Finset.range T,
          ((items.map (fun j => c j x * g j)).sum / D) * (c i x * g i))).sum := by
      refine congrArg List.sum (List.map_congr_left ?_)
      intro i _
      rw [hinner i, Finset.mul_sum]
      refine Finset.sum_congr rfl ?_
      intro x _
      ring
    rw [h2, list_sum_finset_sum_comm]
    refine Finset.sum_congr rfl ?_
    intro x _
    rw [List.sum_map_mul_left]
    ring
  rw [houter]
  refine Finset.sum_nonneg ?_
  intro x _
  have hsq : 0 ≤ (items.map (fun j => c j x * g j)).sum *
      (items.map (fun j => c j x * g j)).sum := mul_self_nonneg _
  exact div_nonneg hsq (le_of_lt hD)

/-- Sample covariance is degenerate (identically 0 in exact arithmetic)
for frames with fewer than two rows — pandas would give NaN. -/
theorem covFn_diag_of_small (T : ℕ) (hT : T ≤ 1) (R : ReturnsMatrix) (i : ℕ) :
    covFn T R i i = 0 := by
  interval_cases T
  · simp [covFn]
  · simp [covFn, colMean, Finset.sum_range_succ]

theorem get_cluster_var_nonneg (T : ℕ) (hT : 2 ≤ T) (R : ReturnsMatrix)
    (items : List ℕ) : 0 ≤ get_cluster_var (covFn T R) items := by
  have hD : 0 < (T : ℚ) - 1 := by
    have h2 : (2 : ℚ) ≤ (T : ℚ) := by exact_mod_cast hT
    linarith
  exact quadform_gram_nonneg T ((T : ℚ) - 1) hD
    (fun i x => (colOf R i).getD x 0 - colMean T (colOf R i))
    (ivpWeight (covFn T R) items) items

theorem get_rec_bipart_sum (cov : ℕ → ℕ → ℚ) :
    ∀ fuel (items : List ℕ) (mult : ℚ) (ws : List (ℕ × ℚ)),
      items ≠ [] →
      get_rec_bipart cov fuel items mult = Except.ok ws →
      (ws.map (·.2)).sum = mult := by
  intro fuel
  induction fuel with
  | zero =>
    intro items mult ws _ h
    exact absurd h (by simp [get_rec_bipart])
  | succ fuel ih =>
    intro items mult ws hne h
    simp only [get_rec_bipart] at h
    by_cases hlen : items.length ≤ 1
    · rw [if_pos hlen] at h
      have hws : ws = items.map (fun i => (i, mult)) := by
        injection h with h'
        exact h'.symm
      subst hws
      cases items with
      | nil => exact absurd rfl hne
      | cons a l =>
        cases l with
        | nil => simp
        | cons b l' => simp at hlen
    · rw [if_neg hlen] at h
      by_cases hz : get_cluster_var cov (items.take (items.length / 2)) +
          get_cluster_var cov (items.drop (items.length / 2)) = 0
      · rw [if_pos hz] at h
        exact absurd h (by simp)
      · rw [if_neg hz] at h
        cases hl : get_rec_bipart cov fuel (items.take (items.length / 2))
            (mult * (1 - get_cluster_var cov (items.take (items.length / 2)) /
              (get_cluster_var cov (items.take (items.length / 2)) +
                get_cluster_var cov (items.drop (items.length / 2))))) with
        | error e => rw [hl] at h; exact absurd h (by simp)
        | ok wl =>
          cases hr : get_rec_bipart cov fuel (items.drop (items.length / 2))
              (mult * (1 - (1 - get_cluster_var cov
                  (items.take (items.length / 2)) /
                (get_cluster_var cov (items.take (items.length / 2)) +
                  get_cluster_var cov (items.drop (items.length / 2)))))) with
          | error e => rw [hl, hr] at h; exact absurd h (by simp)
          | ok wr =>
            rw [hl, hr] at h
            have h' : (Except.ok (wl ++ wr) : Except String (List (ℕ × ℚ))) = Except.ok ws := h
            have hws : ws = wl ++ wr := (Except.ok.inj h').symm
            subst hws
            have htake : items.take (items.length / 2) ≠ [] := by
              have : (items.take (items.length / 2)).length =
                  items.length / 2 := by
                rw [List.length_take]
                omega
              intro hnil
              rw [hnil] at this
              simp at this
              omega
            have hdrop : items.drop (items.length / 2) ≠ [] := by
              have : (items.drop (items.length / 2)).length =
                  items.length - items.length / 2 := List.length_drop _ _
              intro hnil
              rw [hnil] at this
              simp at this
              omega
            rw [List.map_append, List.sum_append, ih _ _ _ htake hl,
              ih _ _ _ hdrop hr]
            ring

theorem get_rec_bipart_nonneg (cov : ℕ → ℕ → ℚ)
    (hv : ∀ l : List ℕ, 0 ≤ get_cluster_var cov l) :
    ∀ fuel (items : List ℕ) (mult : ℚ) (ws : List (ℕ × ℚ)),
      0 ≤ mult →
      get_rec_bipart cov fuel items mult = Except.ok ws →
      ∀ p ∈ ws, 0 ≤ p.2 := by
  intro fuel
  induction fuel with
  | zero =>
    intro items mult ws _ h
    exact absurd h (by simp [get_rec_bipart])
  | succ fuel ih =>
    intro items mult ws hm h
    simp only [get_rec_bipart] at h
    by_cases hlen : items.length ≤ 1
    · rw [if_pos hlen] at h
      have hws : ws = items.map (fun i => (i, mult)) := by
        injection h with h'
        exact h'.symm
      subst hws
      intro p hp
      rcases List.mem_map.mp hp with ⟨i, _, hi⟩
      rw [← hi]
      exact hm
    · rw [if_neg hlen] at h
      by_cases hz : get_cluster_var cov (items.take (items.length / 2)) +
          get_cluster_var cov (items.drop (items.length / 2)) = 0
      · rw [if_pos hz] at h
        exact absurd h (by simp)
      · rw [if_neg hz] at h
        have hv0 := hv (items.take (items.length / 2))
        have hv1 := hv (items.drop (items.length / 2))
        have hsum : 0 < get_cluster_var cov (items.take (items.length / 2)) +
            get_cluster_var cov (items.drop (items.length / 2)) :=
          lt_of_le_of_ne (add_nonneg hv0 hv1) (Ne.symm hz)
        have hq0 : 0 ≤ get_cluster_var cov (items.take (items.length / 2)) /
            (get_cluster_var cov (items.take (items.length / 2)) +
              get_cluster_var cov (items.drop (items.length / 2))) :=
          div_nonneg hv0 hsum.le
        have hq1 : get_cluster_var cov (items.take (items.length / 2)) /
            (get_cluster_var cov (items.take (items.length / 2)) +
              get_cluster_var cov (items.drop (items.length / 2))) ≤ 1 :=
          (div_le_one hsum).mpr (by linarith)
        cases hl : get_rec_bipart cov fuel (items.take (items.length / 2))
            (mult * (1 - get_cluster_var cov (items.take (items.length / 2)) /
              (get_cluster_var cov (items.take (items.length / 2)) +
                get_cluster_var cov (items.drop (items.length / 2))))) with
        | error e => rw [hl] at h; exact absurd h (by simp)
        | ok wl =>
          cases hr : get_rec_bipart cov fuel (items.drop (items.length / 2))
              (mult * (1 - (1 - get_cluster_var cov
                  (items.take (items.length / 2)) /
                (get_cluster_var cov (items.take (items.length / 2)) +
                  get_cluster_var cov (items.drop (items.length / 2)))))) with
          | error e => rw [hl, hr] at h; exact absurd h (by simp)
          | ok wr =>
            rw [hl, hr] at h
            have h' : (Except.ok (wl ++ wr) :
                Except String (List (ℕ × ℚ))) = Except.ok ws := h
            have hws : ws = wl ++ wr := (Except.ok.inj h').symm
            subst hws
            intro p hp
            rcases List.mem_append.mp hp with hp | hp
            · exact ih _ _ _ (mul_nonneg hm (by linarith)) hl p hp
            · exact ih _ _ _ (mul_nonneg hm (by linarith)) hr p hp

theorem list_sum_map_const {α : Type} (l : List α) (q : ℚ) :
    (l.map (fun _ => q)).sum = l.length * q := by
  induction l with
  | nil => simp
  | cons a l ih =>
    simp [ih]
    ring

theorem equal_weights_sum (R : ReturnsMatrix) (h : 1 ≤ R.length) :
    ((equal_weights R).map (·.2)).sum = 1 := by
  unfold equal_weights
  rw [List.map_map]
  have hc : ((fun p : Ticker × ℚ => p.2) ∘
      fun c : Ticker × List ℚ => (c.1, 1 / (R.length : ℚ))) =
      fun _ : Ticker × List ℚ => 1 / (R.length : ℚ) := rfl
  rw [hc, list_sum_map_const]
  have hn : (R.length : ℚ) ≠ 0 := Nat.cast_ne_zero.mpr (by omega)
  field_simp

theorem equal_weights_nonneg (R : ReturnsMatrix) :
    ∀ p ∈ equal_weights R, 0 ≤ p.2 := by
  intro p hp
  unfold equal_weights at hp
  rcases List.mem_map.mp hp with ⟨c, _, hc⟩
  rw [← hc]
  exact div_nonneg zero_le_one (Nat.cast_nonneg _)

/-- C9: for every returns matrix with at least two assets, all of whose
sample variances are strictly positive (hence the frame has ≥ 2 rows and
everything is finite), and for any clustering order delivered by scipy
(a permutation of the asset indices — the `linkage`/`get_quasi_diag`
contract), the HRP weights are all non-negative and sum to exactly 1:
the recursive-bisection split factors lie in [0, 1] because cluster
variances are quadratic forms of the PSD sample covariance, each split
conserves total weight mass, and both exception paths (NaN distances,
`ZeroDivisionError` on a degenerate split) fall back to equal weights,
which also satisfy the property. -/
theorem hrp_weights_nonneg_sum_one (R : ReturnsMatrix) (sortIx : List ℕ)
    (dendro : Option Unit) (hn : 2 ≤ R.length)
    (hvar : ∀ i < R.length, 0 < covFn (numRows R) R i i)
    (hperm : sortIx.Perm (List.range R.length)) :
    (∀ p ∈ (optimize_hrp R sortIx dendro).1, 0 ≤ p.2) ∧
      ((optimize_hrp R sortIx dendro).1.map (·.2)).sum = 1 := by
  have hT : 2 ≤ numRows R := by
    by_contra hc
    push_neg at hc
    have h0 := hvar 0 (by omega)
    rw [covFn_diag_of_small (numRows R) (by omega) R 0] at h0
    exact lt_irrefl 0 h0
  have hvnn : ∀ l : List ℕ, 0 ≤ get_cluster_var (covFn (numRows R) R) l :=
    get_cluster_var_nonneg (numRows R) hT R
  have hlen : sortIx.length = R.length := by
    rw [hperm.length_eq, List.length_range]
  have hne : sortIx ≠ [] := by
    intro h
    rw [h] at hlen
    simp at hlen
    omega
  by_cases hcond : R.length < 2 ∨ hrpHasNaNDist (numRows R) R = true
  · have heq : optimize_hrp R sortIx dendro = (equal_weights R, none) := by
      simp only [optimize_hrp]
      rw [if_pos hcond]
    rw [heq]
    exact ⟨equal_weights_nonneg R, equal_weights_sum R (by omega)⟩
  · have heq : optimize_hrp R sortIx dendro =
        (match get_rec_bipart (covFn (numRows R) R) sortIx.length sortIx 1 with
          | Except.error _ => (equal_weights R, none)
          | Except.ok ws => (ws.map (fun p => (tickerAt R p.1, p.2)), dendro)) := by
      simp only [optimize_hrp]
      rw [if_neg hcond]
    cases hrec : get_rec_bipart (covFn (numRows R) R) sortIx.length sortIx 1 with
    | error e =>
      rw [heq, hrec]
      exact ⟨equal_weights_nonneg R, equal_weights_sum R (by omega)⟩
    | ok ws =>
      rw [heq, hrec]
      dsimp only
      constructor
      · intro p hp
        rcases List.mem_map.mp hp with ⟨q, hq, hpq⟩
        rw [← hpq]
        exact get_rec_bipart_nonneg _ hvnn _ _ _ _ zero_le_one hrec q hq
      · rw [List.map_map]
        have hc : ((fun p : Ticker × ℚ => p.2) ∘
            (fun p : ℕ × ℚ => (tickerAt R p.1, p.2))) =
            fun p : ℕ × ℚ => p.2 := rfl
        rw [hc]
        exact get_rec_bipart_sum _ _ _ _ _ hne hrec

/-- C9 witness: two assets with positive variances; clustering order
[0, 1]. -/
theorem hrp_weights_nonneg_sum_one_witness :
    2 ≤ ([("A", [0, 1/10]), ("B", [1/10, 0])] : ReturnsMatrix).length ∧
      (∀ i < ([("A", [0, 1/10]), ("B", [1/10, 0])] : ReturnsMatrix).length,
        0 < covFn (numRows [("A", [0, 1/10]), ("B", [1/10, 0])])
          [("A", [0, 1/10]), ("B", [1/10, 0])] i i) ∧
      (([0, 1] : List ℕ).Perm
        (List.range ([("A", [0, 1/10]), ("B", [1/10, 0])] : ReturnsMatrix).length)) ∧
      ((∀ p ∈ (optimize_hrp [("A", [0, 1/10]), ("B", [1/10, 0])] [0, 1]
          (some ())).1, 0 ≤ p.2) ∧
        ((optimize_hrp [("A", [0, 1/10]), ("B", [1/10, 0])] [0, 1]
          (some ())).1.map (·.2)).sum = 1) :=
  ⟨by decide,
   by
    intro i hi
    have hi2 : i < 2 := hi
    interval_cases i <;>
      norm_num [covFn, colOf, colMean, numRows, Finset.sum_range_succ],
   by decide,
   hrp_weights_nonneg_sum_one [("A", [0, 1/10]), ("B", [1/10, 0])] [0, 1]
     (some ()) (by decide)
     (by
       intro i hi
       have hi2 : i < 2 := hi
       interval_cases i <;>
         norm_num [covFn, colOf, colMean, numRows, Finset.sum_range_succ])
     (by decide)⟩
